import Mathlib

/-!
Verification of the glass cutting optimizer in `src/main.py`.

The Python program packs rectangular glass pieces onto stock sheets with a
greedy best-fit heuristic: each sheet keeps a list of free rectangular
regions; placing a piece removes the chosen region and appends up to two
leftover regions (a guillotine split).  Dimensions are Python floats used
only through `+`, `-`, `*`, `/`, comparisons and equality; we embed them as
rationals (`ℚ`), the standard exact idealization.  Python's `round(x, 2)`
(banker's rounding on binary floats) is embedded as rounding `x*100` to the
nearest integer; no theorem below depends on tie-at-half behaviour.

The two unbounded `while` loops of `optimize_cutting` are embedded with an
explicit fuel parameter, returning `none` when fuel runs out; sufficiency
lemmas show the fuelled function reproduces the Python loops whenever they
terminate, and `none` for every fuel value models divergence.
-/

namespace GlassCut

/-- Stock sheet specification, from `StockSheet` in `src/main.py`. -/
structure StockSheet where
  thickness_mm : ℚ
  width_mm : ℚ
  height_mm : ℚ
deriving DecidableEq, Repr

/-- Validity check performed by `StockSheet.__post_init__`: all dimensions positive. -/
def StockSheet.valid (s : StockSheet) : Prop :=
  0 < s.thickness_mm ∧ 0 < s.width_mm ∧ 0 < s.height_mm

instance (s : StockSheet) : Decidable s.valid := by
  unfold StockSheet.valid; infer_instance

/-- Default inventory of `GlassInventory.__init__` in `src/main.py`. -/
def stock_sizes : List (String × StockSheet) :=
  [("CL3", ⟨3, 2440, 1830⟩), ("CL4", ⟨4, 2440, 1830⟩), ("CL6", ⟨6, 3300, 2600⟩),
   ("CL10", ⟨10, 3600, 2600⟩), ("HN6", ⟨6, 3300, 2600⟩), ("FIL6", ⟨6, 3600, 2600⟩)]

/-- Lookup of `GlassInventory.get_stock_sheet`; `none` models the `ValueError`. -/
def get_stock_sheet (code : String) : Option StockSheet :=
  stock_sizes.lookup code

/-- A piece to cut, from class `Rectangle` in `src/main.py` (the mutable
`rotated`/`position` fields are modelled at placement time, see `PlacedRect`). -/
structure Rectangle where
  width : ℚ
  height : ℚ
deriving DecidableEq, Repr

/-- Method `Rectangle.can_rotate`: a piece may rotate iff it is not square. -/
def Rectangle.can_rotate (r : Rectangle) : Prop := r.width ≠ r.height

instance (r : Rectangle) : Decidable r.can_rotate := by
  unfold Rectangle.can_rotate; infer_instance

/-- Method `Rectangle.get_dimensions`: effective (width, height) given the rotation flag. -/
def Rectangle.get_dimensions (r : Rectangle) (rotated : Bool) : ℚ × ℚ :=
  if rotated then (r.height, r.width) else (r.width, r.height)

/-- A free region `(x, y, width, height)` of a sheet, as stored in `Sheet.spaces`. -/
structure Space where
  x : ℚ
  y : ℚ
  width : ℚ
  height : ℚ
deriving DecidableEq, Repr

/-- A committed placement: the original (pre-rotation) dimensions, the rotation
flag and the position, as recorded on `Rectangle` objects in `Sheet.placed_rectangles`. -/
structure PlacedRect where
  width : ℚ
  height : ℚ
  rotated : Bool
  x : ℚ
  y : ℚ
deriving DecidableEq, Repr

/-- Effective width of a placed piece (after applying its rotation flag). -/
def PlacedRect.effWidth (p : PlacedRect) : ℚ := if p.rotated then p.height else p.width

/-- Effective height of a placed piece (after applying its rotation flag). -/
def PlacedRect.effHeight (p : PlacedRect) : ℚ := if p.rotated then p.width else p.height

/-- State of one sheet being packed, from class `Sheet` in `src/main.py`. -/
structure Sheet where
  width : ℚ
  height : ℚ
  thickness : ℚ
  placed_rectangles : List PlacedRect
  spaces : List Space
deriving DecidableEq, Repr

/-- Constructor `Sheet.__init__`: one free region covering the whole sheet. -/
def Sheet.new (stock : StockSheet) : Sheet :=
  ⟨stock.width_mm, stock.height_mm, stock.thickness_mm, [],
   [⟨0, 0, stock.width_mm, stock.height_mm⟩]⟩

/-- Fit test of `Sheet.find_best_space` for one orientation: `false` is the
unrotated test of line 74, `true` the rotated test of line 83 (which also
requires `can_rotate`). -/
def fitsOrient (r : Rectangle) (s : Space) : Bool → Prop
  | false => r.width ≤ s.width ∧ r.height ≤ s.height
  | true => r.can_rotate ∧ r.height ≤ s.width ∧ r.width ≤ s.height

instance (r : Rectangle) (s : Space) (o : Bool) : Decidable (fitsOrient r s o) := by
  cases o <;> simp only [fitsOrient] <;> infer_instance

/-- Waste of placing `r` in `s`: `space_width * space_height - rectangle area`
(lines 75 and 84 of `src/main.py`; identical for both orientations). -/
def wasteOf (r : Rectangle) (s : Space) : ℚ :=
  s.width * s.height - r.width * r.height

/-- Accumulator of the search loop in `Sheet.find_best_space`: the current
best space, its index, the rotation choice, and the minimal waste so far. -/
structure BestAcc where
  space : Space
  index : ℕ
  rotate : Bool
  waste : ℚ
deriving DecidableEq, Repr

/-- True when `w` beats the accumulated minimum (`min_waste` starts at infinity). -/
def betterThan (w : ℚ) : Option BestAcc → Prop
  | none => True
  | some b => w < b.waste

instance (w : ℚ) (acc : Option BestAcc) : Decidable (betterThan w acc) := by
  cases acc <;> simp only [betterThan] <;> infer_instance

/-- One conditional update of the search loop of `Sheet.find_best_space`: when
the piece fits `s` in orientation `o` and the waste beats the minimum so far,
record `(s, i, o)` as the new best. -/
def tryOrient (r : Rectangle) (i : ℕ) (s : Space) (o : Bool) (acc : Option BestAcc) :
    Option BestAcc :=
  if fitsOrient r s o ∧ betterThan (wasteOf r s) acc
  then some ⟨s, i, o, wasteOf r s⟩ else acc

/-- One iteration of the `for space_index, space in enumerate(self.spaces)` loop
of `Sheet.find_best_space`: try the unrotated fit, then the rotated fit. -/
def fbsStep (r : Rectangle) (i : ℕ) (s : Space) (acc : Option BestAcc) : Option BestAcc :=
  tryOrient r i s true (tryOrient r i s false acc)

/-- The search loop of `Sheet.find_best_space` over the remaining spaces,
`i` being the index of the first of them in `Sheet.spaces`. -/
def fbsAux (r : Rectangle) : List Space → ℕ → Option BestAcc → Option BestAcc
  | [], _, acc => acc
  | s :: rest, i, acc => fbsAux r rest (i + 1) (fbsStep r i s acc)

/-- Method `Sheet.find_best_space`: the minimum-waste (space, index, rotation)
triple, or `none` when the piece fits nowhere. -/
def Sheet.find_best_space (sheet : Sheet) (r : Rectangle) : Option (Space × ℕ × Bool) :=
  (fbsAux r sheet.spaces 0 none).map fun b => (b.space, b.index, b.rotate)

/-- Method `Sheet.place_rectangle`: remove the chosen space, append the right
leftover (full height) when the footprint is strictly narrower, append the
bottom leftover (footprint width) when it is strictly shorter, and record the
placed piece at the space's origin. -/
def Sheet.place_rectangle (sheet : Sheet) (r : Rectangle) (rotated : Bool)
    (s : Space) (idx : ℕ) : Sheet :=
  let rw := (r.get_dimensions rotated).1
  let rh := (r.get_dimensions rotated).2
  { sheet with
    spaces := sheet.spaces.eraseIdx idx
      ++ (if rw < s.width then [⟨s.x + rw, s.y, s.width - rw, s.height⟩] else [])
      ++ (if rh < s.height then [⟨s.x, s.y + rh, rw, s.height - rh⟩] else [])
    placed_rectangles := sheet.placed_rectangles ++ [⟨r.width, r.height, rotated, s.x, s.y⟩] }

/-- One pass of the `while i < len(unplaced_rectangles)` loop in
`optimize_cutting` (lines 134–145): try every pool piece once in order,
placing it when `find_best_space` succeeds.  Returns the updated sheet, the
still-unplaced pieces in order, and whether anything was placed. -/
def onePass (sheet : Sheet) : List Rectangle → Sheet × List Rectangle × Bool
  | [] => (sheet, [], false)
  | r :: rest =>
    match sheet.find_best_space r with
    | some (s, idx, rot) =>
      let out := onePass (sheet.place_rectangle r rot s idx) rest
      (out.1, out.2.1, true)
    | none =>
      let out := onePass sheet rest
      (out.1, r :: out.2.1, out.2.2)

/-- The `while placed_any` loop of `optimize_cutting` (lines 131–145): repeat
passes over the pool on the same sheet while progress is made.  The fuel
models the unbounded loop; `multiPass_isSome` shows `pool.length + 1` fuel
always suffices, so the Python loop always terminates here. -/
def multiPass : ℕ → Sheet → List Rectangle → Option (Sheet × List Rectangle)
  | 0, _, _ => none
  | fuel + 1, sheet, pool =>
    let out := onePass sheet pool
    if out.2.2 then multiPass fuel out.1 out.2.1 else some (out.1, out.2.1)

/-- The outer `while unplaced_rectangles` loop of `optimize_cutting`
(lines 127–145): open a fresh sheet and fill it with `multiPass`.  `none` for
every fuel value models divergence of the Python loop. -/
def packLoop (stock : StockSheet) : ℕ → List Rectangle → List Sheet → Option (List Sheet)
  | 0, _, _ => none
  | fuel + 1, pool, sheets =>
    if pool.isEmpty then some sheets
    else
      match multiPass (pool.length + 1) (Sheet.new stock) pool with
      | none => none
      | some (sheet, pool1) => packLoop stock fuel pool1 (sheets ++ [sheet])

/-- Demand expansion of `optimize_cutting` lines 116–119: one `Rectangle` per
unit of quantity. -/
def expand_pieces (pieces : List (ℚ × ℚ × ℕ)) : List Rectangle :=
  pieces.flatMap fun p => List.replicate p.2.2 ⟨p.1, p.2.1⟩

/-- Insert a piece into a descending-by-area sorted list, before the first
piece of smaller or equal area (so earlier pieces stay first among ties). -/
def insertDesc (a : Rectangle) : List Rectangle → List Rectangle
  | [] => [a]
  | b :: t => if b.width * b.height ≤ a.width * a.height
      then a :: b :: t else b :: insertDesc a t

/-- The `rectangles.sort(key=lambda r: r.width * r.height, reverse=True)` of
line 122: a stable sort by descending area (Python's list sort is stable). -/
def sort_by_area : List Rectangle → List Rectangle
  | [] => []
  | a :: rest => insertDesc a (sort_by_area rest)

/-- Method `GlassCuttingOptimizer.optimize_cutting` after the inventory
lookup, with explicit fuel for the outer sheet loop. -/
def optimize_cutting (fuel : ℕ) (stock : StockSheet) (pieces : List (ℚ × ℚ × ℕ)) :
    Option (List Sheet) :=
  packLoop stock fuel (sort_by_area (expand_pieces pieces)) []

/-- Total requested quantity of a demand list. -/
def totalQty (pieces : List (ℚ × ℚ × ℕ)) : ℕ := (pieces.map fun p => p.2.2).sum

/-- Python `round(x, 2)`: round to two decimal places. -/
def round2 (q : ℚ) : ℚ := (round (q * 100) : ℚ) / 100

/-- The fields of the dictionary built by `convert_sheet_to_dict` that carry
numeric content (lines 300–311 of `src/main.py`). -/
structure SheetDict where
  efficiency : ℚ
  total_area : ℚ
  used_area : ℚ
deriving DecidableEq, Repr

/-- Used area of a sheet: `sum(rect.width * rect.height for rect in placed_rectangles)`. -/
def Sheet.used_area (sheet : Sheet) : ℚ :=
  (sheet.placed_rectangles.map fun r => r.width * r.height).sum

/-- Function `convert_sheet_to_dict` of `src/main.py` (numeric fields):
`efficiency = round(used_area / total_area * 100, 2)`. -/
def convert_sheet_to_dict (sheet : Sheet) : SheetDict :=
  ⟨round2 (sheet.used_area / (sheet.width * sheet.height) * 100),
   sheet.width * sheet.height, sheet.used_area⟩

/-! Geometry of axis-aligned half-open boxes, used to state disjointness and
coverage of free regions and placed pieces. -/

/-- Half-open axis-aligned box `[x, x+w) × [y, y+h)` as a set of points. -/
def boxSet (x y w h : ℚ) : Set (ℚ × ℚ) :=
  {p | x ≤ p.1 ∧ p.1 < x + w ∧ y ≤ p.2 ∧ p.2 < y + h}

/-- Point set of a free region. -/
def Space.set (s : Space) : Set (ℚ × ℚ) := boxSet s.x s.y s.width s.height

/-- Footprint of a placed piece, using its effective (post-rotation) dimensions. -/
def PlacedRect.set (p : PlacedRect) : Set (ℚ × ℚ) := boxSet p.x p.y p.effWidth p.effHeight

theorem boxSet_empty_of_width (x y w h : ℚ) (hw : w ≤ 0) : boxSet x y w h = ∅ := by
  ext p
  simp only [boxSet, Set.mem_setOf_eq, Set.mem_empty_iff_false, iff_false, not_and]
  intro h1 h2
  exact absurd (lt_of_le_of_lt h1 h2) (by linarith)

theorem boxSet_empty_of_height (x y w h : ℚ) (hh : h ≤ 0) : boxSet x y w h = ∅ := by
  ext p
  simp only [boxSet, Set.mem_setOf_eq, Set.mem_empty_iff_false, iff_false, not_and]
  intro _ _ h3 h4
  exact absurd (lt_of_le_of_lt h3 h4) (by linarith)

theorem boxSet_subset {x y w h x' y' w' h' : ℚ} (hx : x' ≤ x) (hy : y' ≤ y)
    (hw : x + w ≤ x' + w') (hh : y + h ≤ y' + h') :
    boxSet x y w h ⊆ boxSet x' y' w' h' := by
  intro p hp
  obtain ⟨h1, h2, h3, h4⟩ := hp
  exact ⟨by linarith, by linarith, by linarith, by linarith⟩

theorem boxSet_disjoint_horiz {x y w h x' y' w' h' : ℚ} (hsep : x + w ≤ x') :
    Disjoint (boxSet x y w h) (boxSet x' y' w' h') := by
  rw [Set.disjoint_left]
  intro p hp hp'
  obtain ⟨_, h2, _, _⟩ := hp
  obtain ⟨h1', _, _, _⟩ := hp'
  linarith

theorem boxSet_disjoint_vert {x y w h x' y' w' h' : ℚ} (hsep : y + h ≤ y') :
    Disjoint (boxSet x y w h) (boxSet x' y' w' h') := by
  rw [Set.disjoint_left]
  intro p hp hp'
  obtain ⟨_, _, _, h4⟩ := hp
  obtain ⟨_, _, h3', _⟩ := hp'
  linarith

/-- Guillotine split of `Sheet.place_rectangle`: footprint, right leftover and
bottom leftover partition the chosen region. -/
theorem boxSet_split (x y sw sh rw rh : ℚ) (h0w : 0 ≤ rw) (h0h : 0 ≤ rh)
    (hw : rw ≤ sw) (hh : rh ≤ sh) :
    boxSet x y rw rh ∪ (boxSet (x + rw) y (sw - rw) sh ∪ boxSet x (y + rh) rw (sh - rh))
      = boxSet x y sw sh := by
  ext ⟨a, b⟩
  simp only [Set.mem_union, boxSet, Set.mem_setOf_eq]
  constructor
  · rintro (⟨h1, h2, h3, h4⟩ | ⟨h1, h2, h3, h4⟩ | ⟨h1, h2, h3, h4⟩) <;>
      exact ⟨by linarith, by linarith, by linarith, by linarith⟩
  · rintro ⟨h1, h2, h3, h4⟩
    by_cases ha : a < x + rw
    · by_cases hb : b < y + rh
      · exact Or.inl ⟨h1, ha, h3, hb⟩
      · exact Or.inr (Or.inr ⟨h1, ha, by linarith, by linarith⟩)
    · exact Or.inr (Or.inl ⟨by linarith, by linarith, h3, h4⟩)

/-! List helpers over unions, sums and pairwise disjointness. -/

/-- Union of the point sets of a list's elements. -/
def unionOver {α : Type} (f : α → Set (ℚ × ℚ)) : List α → Set (ℚ × ℚ)
  | [] => ∅
  | a :: l => f a ∪ unionOver f l

theorem unionOver_append {α : Type} (f : α → Set (ℚ × ℚ)) (l m : List α) :
    unionOver f (l ++ m) = unionOver f l ∪ unionOver f m := by
  induction l with
  | nil => simp [unionOver]
  | cons a t ih => simp [unionOver, ih, Set.union_assoc]

theorem subset_unionOver {α : Type} (f : α → Set (ℚ × ℚ)) {l : List α} {a : α}
    (h : a ∈ l) : f a ⊆ unionOver f l := by
  induction l with
  | nil => cases h
  | cons b t ih =>
    rcases List.mem_cons.mp h with h | h
    · subst h; exact Set.subset_union_left
    · exact (ih h).trans Set.subset_union_right

theorem unionOver_eraseIdx {α : Type} (f : α → Set (ℚ × ℚ)) :
    ∀ (l : List α) (i : ℕ) (a : α), l[i]? = some a →
      unionOver f l = f a ∪ unionOver f (l.eraseIdx i)
  | [], i, a, h => by simp at h
  | b :: t, 0, a, h => by
    simp only [List.getElem?_cons_zero, Option.some.injEq] at h
    subst h
    rfl
  | b :: t, i + 1, a, h => by
    simp only [List.getElem?_cons_succ] at h
    have ih := unionOver_eraseIdx f t i a h
    show f b ∪ unionOver f t = f a ∪ unionOver f (b :: t.eraseIdx i)
    rw [ih]
    show f b ∪ (f a ∪ unionOver f (t.eraseIdx i))
      = f a ∪ (f b ∪ unionOver f (t.eraseIdx i))
    rw [← Set.union_assoc, Set.union_comm (f b) (f a), Set.union_assoc]

theorem disjoint_unionOver {α : Type} (f : α → Set (ℚ × ℚ)) {l : List α}
    {X : Set (ℚ × ℚ)} (h : ∀ a ∈ l, Disjoint (f a) X) :
    Disjoint (unionOver f l) X := by
  induction l with
  | nil => simp [unionOver]
  | cons a t ih =>
    simp only [unionOver, Set.disjoint_union_left]
    exact ⟨h a (List.mem_cons_self a t), ih fun b hb => h b (List.mem_cons_of_mem a hb)⟩

theorem mapSum_eraseIdx (f : α → ℚ) :
    ∀ (l : List α) (i : ℕ) (a : α), l[i]? = some a →
      (l.map f).sum = f a + ((l.eraseIdx i).map f).sum
  | [], i, a, h => by simp at h
  | b :: t, 0, a, h => by
    simp only [List.getElem?_cons_zero, Option.some.injEq] at h
    subst h
    rfl
  | b :: t, i + 1, a, h => by
    simp only [List.getElem?_cons_succ] at h
    have ih := mapSum_eraseIdx f t i a h
    simp only [List.eraseIdx_cons_succ, List.map_cons, List.sum_cons, ih]
    ring

theorem pairwise_rel_eraseIdx {α : Type} {R : α → α → Prop} (hs : Symmetric R) :
    ∀ (l : List α) (i : ℕ) (a : α), l.Pairwise R → l[i]? = some a →
      ∀ b ∈ l.eraseIdx i, R a b
  | [], i, a, _, h => by simp at h
  | c :: t, 0, a, hp, h => by
    simp only [List.getElem?_cons_zero, Option.some.injEq] at h
    subst h
    simpa using (List.pairwise_cons.mp hp).1
  | c :: t, i + 1, a, hp, h => by
    simp only [List.getElem?_cons_succ] at h
    obtain ⟨hc, ht⟩ := List.pairwise_cons.mp hp
    intro b hb
    simp only [List.eraseIdx_cons_succ, List.mem_cons] at hb
    rcases hb with hb | hb
    · subst hb
      exact hs (hc a (List.getElem?_mem h))
    · exact pairwise_rel_eraseIdx hs t i a ht h b hb

theorem mem_iteSingleton {α : Type} {c : Prop} [Decidable c] (a b : α) :
    a ∈ (if c then [b] else []) ↔ c ∧ a = b := by
  split_ifs with h <;> simp [h]

theorem pairwise_iteSingleton {α : Type} {c : Prop} [Decidable c] (b : α)
    (R : α → α → Prop) : (if c then [b] else []).Pairwise R := by
  split_ifs <;> simp

/-- Effective dimensions are positive for a positive piece. -/
theorem get_dimensions_pos (r : Rectangle) (hw : 0 < r.width) (hh : 0 < r.height)
    (rot : Bool) : 0 < (r.get_dimensions rot).1 ∧ 0 < (r.get_dimensions rot).2 := by
  cases rot <;> simp [Rectangle.get_dimensions] <;> exact ⟨by assumption, by assumption⟩

/-- A fitting orientation means the effective dimensions fit the space. -/
theorem fits_dims {r : Rectangle} {s : Space} {rot : Bool} (h : fitsOrient r s rot) :
    (r.get_dimensions rot).1 ≤ s.width ∧ (r.get_dimensions rot).2 ≤ s.height := by
  cases rot
  · exact ⟨h.1, h.2⟩
  · exact ⟨h.2.1, h.2.2⟩

/-- Rotation preserves area. -/
theorem get_dimensions_area (r : Rectangle) (rot : Bool) :
    (r.get_dimensions rot).1 * (r.get_dimensions rot).2 = r.width * r.height := by
  cases rot
  · rfl
  · exact mul_comm _ _

/-- Sum of free-region areas. -/
def spaceAreas (l : List Space) : ℚ := (l.map fun s => s.width * s.height).sum

/-- Sum of placed-piece areas (rotation does not change a piece's area). -/
def placedAreas (l : List PlacedRect) : ℚ := (l.map fun p => p.width * p.height).sum

/-- Invariant maintained by the packing loop on every sheet with stock
dimensions `W × H`: free regions and placed pieces stay in bounds, are
pairwise disjoint, partition the sheet area exactly, and rotation is only
ever applied to non-square pieces. -/
structure SheetInv (W H : ℚ) (sheet : Sheet) : Prop where
  width_eq : sheet.width = W
  height_eq : sheet.height = H
  hW : 0 < W
  hH : 0 < H
  spaces_pos : ∀ s ∈ sheet.spaces, 0 < s.width ∧ 0 < s.height
  spaces_in : ∀ s ∈ sheet.spaces, 0 ≤ s.x ∧ 0 ≤ s.y ∧ s.x + s.width ≤ W ∧ s.y + s.height ≤ H
  placed_pos : ∀ p ∈ sheet.placed_rectangles, 0 < p.width ∧ 0 < p.height
  placed_in : ∀ p ∈ sheet.placed_rectangles,
    0 ≤ p.x ∧ 0 ≤ p.y ∧ p.x + p.effWidth ≤ W ∧ p.y + p.effHeight ≤ H
  rot_ne : ∀ p ∈ sheet.placed_rectangles, p.rotated = true → p.width ≠ p.height
  area_sum : spaceAreas sheet.spaces + placedAreas sheet.placed_rectangles = W * H
  spaces_disj : sheet.spaces.Pairwise fun a b => Disjoint a.set b.set
  placed_disj : sheet.placed_rectangles.Pairwise fun a b => Disjoint a.set b.set
  cross_disj : ∀ s ∈ sheet.spaces, ∀ p ∈ sheet.placed_rectangles, Disjoint s.set p.set
  cover : unionOver Space.set sheet.spaces ∪ unionOver PlacedRect.set sheet.placed_rectangles
    = boxSet 0 0 W H

/-- A freshly opened sheet satisfies the packing invariant. -/
theorem sheetInv_new (stock : StockSheet) (h : stock.valid) :
    SheetInv stock.width_mm stock.height_mm (Sheet.new stock) := by
  obtain ⟨-, hw, hh⟩ := h
  refine ⟨rfl, rfl, hw, hh, ?_, ?_, ?_, ?_, ?_, ?_, ?_, ?_, ?_, ?_⟩
  · intro s hs
    simp only [Sheet.new, List.mem_singleton] at hs
    subst hs
    exact ⟨hw, hh⟩
  · intro s hs
    simp only [Sheet.new, List.mem_singleton] at hs
    subst hs
    exact ⟨le_refl 0, le_refl 0, by simp, by simp⟩
  · intro p hp
    simp [Sheet.new] at hp
  · intro p hp
    simp [Sheet.new] at hp
  · intro p hp
    simp [Sheet.new] at hp
  · simp [Sheet.new, spaceAreas, placedAreas]
  · simp [Sheet.new]
  · simp [Sheet.new]
  · intro s hs p hp
    simp [Sheet.new] at hp
  · simp [Sheet.new, unionOver, Space.set]

theorem fbsStep_prop (r : Rectangle) (P : BestAcc → Prop) (i : ℕ) (s : Space)
    (acc : Option BestAcc) (hacc : ∀ b, acc = some b → P b)
    (hcand : ∀ o, fitsOrient r s o → P ⟨s, i, o, wasteOf r s⟩) :
    ∀ b, fbsStep r i s acc = some b → P b := by
  have htry : ∀ (o : Bool) (acc1 : Option BestAcc), (∀ b, acc1 = some b → P b) →
      ∀ b, tryOrient r i s o acc1 = some b → P b := by
    intro o acc1 hacc1 b hb
    unfold tryOrient at hb
    split_ifs at hb with hc
    · cases hb
      exact hcand o hc.1
    · exact hacc1 b hb
  intro b hb
  unfold fbsStep at hb
  exact htry true _ (htry false acc hacc) b hb

theorem fbsAux_prop (r : Rectangle) (P : BestAcc → Prop) :
    ∀ (l : List Space) (k : ℕ) (acc : Option BestAcc),
      (∀ b, acc = some b → P b) →
      (∀ j s, l[j]? = some s → ∀ o, fitsOrient r s o → P ⟨s, k + j, o, wasteOf r s⟩) →
      ∀ b, fbsAux r l k acc = some b → P b
  | [], _, _, hacc, _, b, hb => hacc b hb
  | s :: rest, k, acc, hacc, hcand, b, hb => by
    refine fbsAux_prop r P rest (k + 1) (fbsStep r k s acc) ?_ ?_ b hb
    · refine fbsStep_prop r P k s acc hacc fun o ho => ?_
      have h0 := hcand 0 s (by simp) o ho
      simpa using h0
    · intro j s' hj o ho
      have h1 := hcand (j + 1) s' (by simpa using hj) o ho
      have e : k + (j + 1) = k + 1 + j := by omega
      rwa [e] at h1

/-- Soundness of `Sheet.find_best_space`: the returned space is the element of
`spaces` at the returned index, and the piece fits it in the returned orientation. -/
theorem find_best_space_sound {sheet : Sheet} {r : Rectangle} {s : Space} {idx : ℕ}
    {rot : Bool} (h : sheet.find_best_space r = some (s, idx, rot)) :
    sheet.spaces[idx]? = some s ∧ fitsOrient r s rot := by
  unfold Sheet.find_best_space at h
  rw [Option.map_eq_some'] at h
  obtain ⟨b, hb, hmap⟩ := h
  have hP := fbsAux_prop r
    (fun b => sheet.spaces[b.index]? = some b.space ∧ fitsOrient r b.space b.rotate)
    sheet.spaces 0 none (by intro b hcon; cases hcon)
    (fun j s' hj o ho => by simpa using ⟨hj, ho⟩) b hb
  simp only [Prod.mk.injEq] at hmap
  rw [← hmap.1, ← hmap.2.1, ← hmap.2.2]
  exact hP

theorem place_spaces (sheet : Sheet) (r : Rectangle) (rot : Bool) (s : Space) (idx : ℕ) :
    (sheet.place_rectangle r rot s idx).spaces
      = sheet.spaces.eraseIdx idx
        ++ (if (r.get_dimensions rot).1 < s.width
            then [⟨s.x + (r.get_dimensions rot).1, s.y,
                   s.width - (r.get_dimensions rot).1, s.height⟩] else [])
        ++ (if (r.get_dimensions rot).2 < s.height
            then [⟨s.x, s.y + (r.get_dimensions rot).2,
                   (r.get_dimensions rot).1, s.height - (r.get_dimensions rot).2⟩] else []) :=
  rfl

theorem place_placed (sheet : Sheet) (r : Rectangle) (rot : Bool) (s : Space) (idx : ℕ) :
    (sheet.place_rectangle r rot s idx).placed_rectangles
      = sheet.placed_rectangles ++ [⟨r.width, r.height, rot, s.x, s.y⟩] :=
  rfl

/-- Placement through `Sheet.place_rectangle` preserves the packing invariant,
provided the space is the one found at the given index and the piece fits it. -/
theorem place_preserves {W H : ℚ} {sheet : Sheet} {r : Rectangle} {rot : Bool}
    {s : Space} {idx : ℕ} (hInv : SheetInv W H sheet)
    (hw : 0 < r.width) (hh : 0 < r.height)
    (hidx : sheet.spaces[idx]? = some s) (hfit : fitsOrient r s rot) :
    SheetInv W H (sheet.place_rectangle r rot s idx) := by
  have smem : s ∈ sheet.spaces := List.getElem?_mem hidx
  obtain ⟨hsw, hsh⟩ := hInv.spaces_pos s smem
  obtain ⟨hsx, hsy, hsxw, hsyh⟩ := hInv.spaces_in s smem
  obtain ⟨hdw, hdh⟩ := get_dimensions_pos r hw hh rot
  obtain ⟨hfw, hfh⟩ := fits_dims hfit
  have harea := get_dimensions_area r rot
  set dw := (r.get_dimensions rot).1 with hdwdef
  set dh := (r.get_dimensions rot).2 with hdhdef
  set pn : PlacedRect := ⟨r.width, r.height, rot, s.x, s.y⟩ with hpndef
  set R : Space := ⟨s.x + dw, s.y, s.width - dw, s.height⟩ with hRdef
  set Bb : Space := ⟨s.x, s.y + dh, dw, s.height - dh⟩ with hBbdef
  have hpnW : pn.effWidth = dw := by
    rw [hpndef, hdwdef]; cases rot <;> rfl
  have hpnH : pn.effHeight = dh := by
    rw [hpndef, hdhdef]; cases rot <;> rfl
  have hpnx : pn.x = s.x := rfl
  have hpny : pn.y = s.y := rfl
  have hpnrot : pn.rotated = rot := rfl
  have hpnw : pn.width = r.width := rfl
  have hpnh : pn.height = r.height := rfl
  have hpnset : pn.set = boxSet s.x s.y dw dh := by
    rw [PlacedRect.set, hpnx, hpny, hpnW, hpnH]
  have hRset : R.set = boxSet (s.x + dw) s.y (s.width - dw) s.height := rfl
  have hBbset : Bb.set = boxSet s.x (s.y + dh) dw (s.height - dh) := rfl
  have hsset : s.set = boxSet s.x s.y s.width s.height := rfl
  have hRsub : R.set ⊆ s.set := by
    rw [hRset, hsset]
    exact boxSet_subset (by linarith) (le_refl _) (by linarith) (by linarith)
  have hBbsub : Bb.set ⊆ s.set := by
    rw [hBbset, hsset]
    exact boxSet_subset (le_refl _) (by linarith) (by linarith) (by linarith)
  have hFsub : pn.set ⊆ s.set := by
    rw [hpnset, hsset]
    exact boxSet_subset (le_refl _) (le_refl _) (by linarith) (by linarith)
  have hFR : Disjoint pn.set R.set := by
    rw [hpnset, hRset]
    exact boxSet_disjoint_horiz (le_refl _)
  have hFBb : Disjoint pn.set Bb.set := by
    rw [hpnset, hBbset]
    exact boxSet_disjoint_vert (le_refl _)
  have hRBb : Disjoint R.set Bb.set := by
    rw [hRset, hBbset]
    exact (boxSet_disjoint_horiz (le_refl _)).symm
  have hsymm : Symmetric fun a b : Space => Disjoint a.set b.set := fun a b hab => hab.symm
  have hEs : ∀ e ∈ sheet.spaces.eraseIdx idx, Disjoint s.set e.set :=
    pairwise_rel_eraseIdx hsymm sheet.spaces idx s hInv.spaces_disj hidx
  have hEmem : ∀ e ∈ sheet.spaces.eraseIdx idx, e ∈ sheet.spaces :=
    fun e he => (List.eraseIdx_sublist sheet.spaces idx).subset he
  have hmem' : ∀ t : Space, t ∈ (sheet.place_rectangle r rot s idx).spaces ↔
      t ∈ sheet.spaces.eraseIdx idx ∨ (dw < s.width ∧ t = R) ∨ (dh < s.height ∧ t = Bb) := by
    intro t
    rw [place_spaces, ← hdwdef, ← hdhdef, ← hRdef, ← hBbdef, List.mem_append,
      List.mem_append, mem_iteSingleton, mem_iteSingleton]
    tauto
  have hpmem : ∀ p : PlacedRect, p ∈ (sheet.place_rectangle r rot s idx).placed_rectangles
      ↔ p ∈ sheet.placed_rectangles ∨ p = pn := by
    intro p
    rw [place_placed, ← hpndef, List.mem_append, List.mem_singleton]
  refine ⟨hInv.width_eq, hInv.height_eq, hInv.hW, hInv.hH, ?_, ?_, ?_, ?_, ?_, ?_, ?_, ?_,
    ?_, ?_⟩
  · intro t ht
    rw [hmem'] at ht
    rcases ht with ht | ⟨hA, rfl⟩ | ⟨hB, rfl⟩
    · exact hInv.spaces_pos t (hEmem t ht)
    · exact ⟨by simp only [hRdef]; linarith, by simp only [hRdef]; linarith⟩
    · exact ⟨by simp only [hBbdef]; linarith, by simp only [hBbdef]; linarith⟩
  · intro t ht
    rw [hmem'] at ht
    rcases ht with ht | ⟨hA, rfl⟩ | ⟨hB, rfl⟩
    · exact hInv.spaces_in t (hEmem t ht)
    · refine ⟨by simp only [hRdef]; linarith, by simp only [hRdef]; linarith,
        by simp only [hRdef]; linarith, by simp only [hRdef]; linarith⟩
    · refine ⟨by simp only [hBbdef]; linarith, by simp only [hBbdef]; linarith,
        by simp only [hBbdef]; linarith, by simp only [hBbdef]; linarith⟩
  · intro p hp
    rw [hpmem] at hp
    rcases hp with hp | rfl
    · exact hInv.placed_pos p hp
    · exact ⟨hw, hh⟩
  · intro p hp
    rw [hpmem] at hp
    rcases hp with hp | rfl
    · exact hInv.placed_in p hp
    · rw [hpnx, hpny, hpnW, hpnH]
      exact ⟨hsx, hsy, by linarith, by linarith⟩
  · intro p hp
    rw [hpmem] at hp
    rcases hp with hp | rfl
    · exact hInv.rot_ne p hp
    · intro hrot
      have hrt : rot = true := hpnrot ▸ hrot
      subst hrt
      rw [hpnw, hpnh]
      exact hfit.1
  · have hES := mapSum_eraseIdx (fun t : Space => t.width * t.height) sheet.spaces idx s hidx
    have old := hInv.area_sum
    simp only [spaceAreas, placedAreas] at old ⊢
    rw [place_spaces, place_placed, ← hdwdef, ← hdhdef, ← hRdef, ← hBbdef]
    simp only [List.map_append, List.sum_append]
    have haA : ((if dw < s.width then [R] else []).map fun t : Space => t.width * t.height).sum
        = (s.width - dw) * s.height := by
      split_ifs with hA
      · simp [hRdef]
      · have hdweq : dw = s.width := le_antisymm hfw (not_lt.mp hA)
        have hz : (s.width - dw) * s.height = 0 := by rw [hdweq]; ring
        simp [hz]
    have haB : ((if dh < s.height then [Bb] else []).map
          fun t : Space => t.width * t.height).sum = dw * (s.height - dh) := by
      split_ifs with hB
      · simp [hBbdef]
      · have hdheq : dh = s.height := le_antisymm hfh (not_lt.mp hB)
        have hz : dw * (s.height - dh) = 0 := by rw [hdheq]; ring
        simp [hz]
    rw [haA, haB]
    simp only [List.map_cons, List.map_nil, List.sum_cons, List.sum_nil, hpnw, hpnh]
    linear_combination old - hES - harea
  · rw [place_spaces, ← hdwdef, ← hdhdef, ← hRdef, ← hBbdef, List.pairwise_append,
      List.pairwise_append]
    refine ⟨⟨hInv.spaces_disj.sublist (List.eraseIdx_sublist sheet.spaces idx),
      pairwise_iteSingleton R _, ?_⟩, pairwise_iteSingleton Bb _, ?_⟩
    · intro a ha b hb
      rw [mem_iteSingleton] at hb
      obtain ⟨-, rfl⟩ := hb
      exact ((hEs a ha).symm).mono_right hRsub
    · intro a ha b hb
      rw [mem_iteSingleton] at hb
      obtain ⟨-, rfl⟩ := hb
      rw [List.mem_append] at ha
      rcases ha with ha | ha
      · exact ((hEs a ha).symm).mono_right hBbsub
      · rw [mem_iteSingleton] at ha
        obtain ⟨-, rfl⟩ := ha
        exact hRBb
  · rw [place_placed, ← hpndef, List.pairwise_append]
    refine ⟨hInv.placed_disj, by simp, ?_⟩
    intro a ha b hb
    rw [List.mem_singleton] at hb
    subst hb
    exact ((hInv.cross_disj s smem a ha).symm).mono_right hFsub
  · intro t ht p hp
    rw [hmem'] at ht
    rw [hpmem] at hp
    rcases ht with ht | ⟨hA, rfl⟩ | ⟨hB, rfl⟩ <;> rcases hp with hp | rfl
    · exact hInv.cross_disj t (hEmem t ht) p hp
    · exact ((hEs t ht).symm).mono_right hFsub
    · exact (hInv.cross_disj s smem p hp).mono_left hRsub
    · exact hFR.symm
    · exact (hInv.cross_disj s smem p hp).mono_left hBbsub
    · exact hFBb.symm
  · have e1 := unionOver_eraseIdx Space.set sheet.spaces idx s hidx
    have hsplit := boxSet_split s.x s.y s.width s.height dw dh (le_of_lt hdw)
      (le_of_lt hdh) hfw hfh
    have hA : unionOver Space.set (if dw < s.width then [R] else [])
        = boxSet (s.x + dw) s.y (s.width - dw) s.height := by
      split_ifs with hcond
      · simp [unionOver, hRset]
      · have hdweq : dw = s.width := le_antisymm hfw (not_lt.mp hcond)
        rw [boxSet_empty_of_width _ _ _ _ (by rw [hdweq]; linarith)]
        rfl
    have hB : unionOver Space.set (if dh < s.height then [Bb] else [])
        = boxSet s.x (s.y + dh) dw (s.height - dh) := by
      split_ifs with hcond
      · simp [unionOver, hBbset]
      · have hdheq : dh = s.height := le_antisymm hfh (not_lt.mp hcond)
        rw [boxSet_empty_of_height _ _ _ _ (by rw [hdheq]; linarith)]
        rfl
    have hcov := hInv.cover
    rw [place_spaces, place_placed, ← hdwdef, ← hdhdef, ← hRdef, ← hBbdef, ← hpndef,
      unionOver_append, unionOver_append, unionOver_append, hA, hB]
    simp only [unionOver, Set.union_empty]
    ext pt
    have h1 := Set.ext_iff.mp hsplit pt
    have h2 := Set.ext_iff.mp hcov pt
    have h3 := Set.ext_iff.mp e1 pt
    rw [hsset] at h3
    rw [hpnset]
    simp only [Set.mem_union] at h1 h2 h3 ⊢
    revert h1 h2 h3
    generalize (pt ∈ unionOver Space.set (sheet.spaces.eraseIdx idx)) = A1
    generalize (pt ∈ boxSet (s.x + dw) s.y (s.width - dw) s.height) = A2
    generalize (pt ∈ boxSet s.x (s.y + dh) dw (s.height - dh)) = A3
    generalize (pt ∈ unionOver PlacedRect.set sheet.placed_rectangles) = A4
    generalize (pt ∈ boxSet s.x s.y dw dh) = A5
    generalize (pt ∈ boxSet 0 0 W H) = A6
    generalize (pt ∈ unionOver Space.set sheet.spaces) = A7
    generalize (pt ∈ boxSet s.x s.y s.width s.height) = A8
    intro h1 h2 h3
    constructor
    · rintro (((a1 | a2) | a3) | a4 | a5)
      · exact h2.mp (Or.inl (h3.mpr (Or.inr a1)))
      · exact h2.mp (Or.inl (h3.mpr (Or.inl (h1.mp (Or.inr (Or.inl a2))))))
      · exact h2.mp (Or.inl (h3.mpr (Or.inl (h1.mp (Or.inr (Or.inr a3))))))
      · exact h2.mp (Or.inr a4)
      · exact h2.mp (Or.inl (h3.mpr (Or.inl (h1.mp (Or.inl a5)))))
    · intro a6
      rcases h2.mpr a6 with a7 | a4
      · rcases h3.mp a7 with a8 | a1
        · rcases h1.mpr a8 with a5 | a2 | a3
          · exact Or.inr (Or.inr a5)
          · exact Or.inl (Or.inl (Or.inr a2))
          · exact Or.inl (Or.inr a3)
        · exact Or.inl (Or.inl (Or.inl a1))
      · exact Or.inr (Or.inl a4)

/-! Lifting the invariant and counting facts through the packing loops. -/

theorem onePass_mem (sheet : Sheet) (pool : List Rectangle) :
    ∀ a ∈ (onePass sheet pool).2.1, a ∈ pool := by
  induction pool generalizing sheet with
  | nil => intro a ha; simp [onePass] at ha
  | cons r rest ih =>
    intro a ha
    cases h : sheet.find_best_space r with
    | some x =>
      obtain ⟨s, idx, rot⟩ := x
      simp only [onePass, h] at ha
      exact List.mem_cons_of_mem r (ih _ a ha)
    | none =>
      simp only [onePass, h] at ha
      rcases List.mem_cons.mp ha with rfl | ha
      · exact List.mem_cons_self a rest
      · exact List.mem_cons_of_mem r (ih sheet a ha)

theorem onePass_count (sheet : Sheet) (pool : List Rectangle) :
    (onePass sheet pool).1.placed_rectangles.length + (onePass sheet pool).2.1.length
      = sheet.placed_rectangles.length + pool.length := by
  induction pool generalizing sheet with
  | nil => simp [onePass]
  | cons r rest ih =>
    cases h : sheet.find_best_space r with
    | some x =>
      obtain ⟨s, idx, rot⟩ := x
      simp only [onePass, h]
      have hrec := ih (sheet.place_rectangle r rot s idx)
      have hplace : (sheet.place_rectangle r rot s idx).placed_rectangles.length
          = sheet.placed_rectangles.length + 1 := by
        rw [place_placed]; simp
      simp only [List.length_cons]
      omega
    | none =>
      simp only [onePass, h, List.length_cons]
      have hrec := ih sheet
      omega

theorem onePass_pool_le (sheet : Sheet) (pool : List Rectangle) :
    (onePass sheet pool).2.1.length ≤ pool.length := by
  induction pool generalizing sheet with
  | nil => simp [onePass]
  | cons r rest ih =>
    cases h : sheet.find_best_space r with
    | some x =>
      obtain ⟨s, idx, rot⟩ := x
      simp only [onePass, h, List.length_cons]
      exact le_trans (ih _) (by omega)
    | none =>
      simp only [onePass, h, List.length_cons]
      exact Nat.succ_le_succ (ih sheet)

theorem onePass_flag_false (sheet : Sheet) (pool : List Rectangle)
    (h : (onePass sheet pool).2.2 = false) :
    (onePass sheet pool).1 = sheet ∧ (onePass sheet pool).2.1 = pool := by
  induction pool generalizing sheet with
  | nil => simp [onePass]
  | cons r rest ih =>
    cases hf : sheet.find_best_space r with
    | some x =>
      obtain ⟨s, idx, rot⟩ := x
      rw [show (onePass sheet (r :: rest)).2.2
        = true from by simp [onePass, hf]] at h
      cases h
    | none =>
      simp only [onePass, hf] at h ⊢
      obtain ⟨h1, h2⟩ := ih sheet h
      exact ⟨h1, by rw [h2]⟩

theorem onePass_flag_true (sheet : Sheet) (pool : List Rectangle)
    (h : (onePass sheet pool).2.2 = true) :
    (onePass sheet pool).2.1.length < pool.length := by
  induction pool generalizing sheet with
  | nil => simp [onePass] at h
  | cons r rest ih =>
    cases hf : sheet.find_best_space r with
    | some x =>
      obtain ⟨s, idx, rot⟩ := x
      simp only [onePass, hf, List.length_cons]
      exact lt_of_le_of_lt (onePass_pool_le _ rest) (by omega)
    | none =>
      simp only [onePass, hf, List.length_cons] at h ⊢
      exact Nat.succ_lt_succ (ih sheet h)

theorem onePass_inv {W H : ℚ} (sheet : Sheet) (pool : List Rectangle)
    (hInv : SheetInv W H sheet) (hpool : ∀ a ∈ pool, 0 < a.width ∧ 0 < a.height) :
    SheetInv W H (onePass sheet pool).1 := by
  induction pool generalizing sheet with
  | nil => simpa [onePass] using hInv
  | cons r rest ih =>
    cases h : sheet.find_best_space r with
    | some x =>
      obtain ⟨s, idx, rot⟩ := x
      obtain ⟨hidx, hfit⟩ := find_best_space_sound h
      obtain ⟨hw, hh⟩ := hpool r (List.mem_cons_self r rest)
      simp only [onePass, h]
      exact ih _ (place_preserves hInv hw hh hidx hfit)
        (fun a ha => hpool a (List.mem_cons_of_mem r ha))
    | none =>
      simp only [onePass, h]
      exact ih sheet hInv (fun a ha => hpool a (List.mem_cons_of_mem r ha))

/-- The `while placed_any` loop always terminates: `pool.length + 1` passes
suffice, because every continuing pass strictly shrinks the pool. -/
theorem multiPass_isSome : ∀ (fuel : ℕ) (sheet : Sheet) (pool : List Rectangle),
    pool.length < fuel → (multiPass fuel sheet pool).isSome
  | 0, _, pool, h => absurd h (by omega)
  | fuel + 1, sheet, pool, h => by
    simp only [multiPass]
    split_ifs with hflag
    · have hlt := onePass_flag_true sheet pool hflag
      exact multiPass_isSome fuel _ _ (by omega)
    · simp

theorem multiPass_mem : ∀ (fuel : ℕ) (sheet : Sheet) (pool : List Rectangle)
    {sheet1 : Sheet} {pool1 : List Rectangle},
    multiPass fuel sheet pool = some (sheet1, pool1) → ∀ a ∈ pool1, a ∈ pool
  | 0, _, _, _, _, h => by cases h
  | fuel + 1, sheet, pool, sheet1, pool1, h => by
    simp only [multiPass] at h
    split_ifs at h with hflag
    · intro a ha
      exact onePass_mem sheet pool a (multiPass_mem fuel _ _ h a ha)
    · intro a ha
      cases h
      exact onePass_mem sheet pool a ha

theorem multiPass_count : ∀ (fuel : ℕ) (sheet : Sheet) (pool : List Rectangle)
    {sheet1 : Sheet} {pool1 : List Rectangle},
    multiPass fuel sheet pool = some (sheet1, pool1) →
    sheet1.placed_rectangles.length + pool1.length
      = sheet.placed_rectangles.length + pool.length
  | 0, _, _, _, _, h => by cases h
  | fuel + 1, sheet, pool, sheet1, pool1, h => by
    simp only [multiPass] at h
    have hcnt := onePass_count sheet pool
    split_ifs at h with hflag
    · have hrec := multiPass_count fuel _ _ h
      omega
    · cases h
      omega

theorem multiPass_pool_le : ∀ (fuel : ℕ) (sheet : Sheet) (pool : List Rectangle)
    {sheet1 : Sheet} {pool1 : List Rectangle},
    multiPass fuel sheet pool = some (sheet1, pool1) → pool1.length ≤ pool.length
  | 0, _, _, _, _, h => by cases h
  | fuel + 1, sheet, pool, sheet1, pool1, h => by
    simp only [multiPass] at h
    split_ifs at h with hflag
    · exact le_trans (multiPass_pool_le fuel _ _ h) (onePass_pool_le sheet pool)
    · cases h
      exact onePass_pool_le sheet pool

theorem multiPass_strict (fuel : ℕ) (sheet : Sheet) (pool : List Rectangle)
    {sheet1 : Sheet} {pool1 : List Rectangle}
    (hflag : (onePass sheet pool).2.2 = true)
    (h : multiPass fuel sheet pool = some (sheet1, pool1)) :
    pool1.length < pool.length := by
  cases fuel with
  | zero => cases h
  | succ fuel =>
    simp only [multiPass] at h
    rw [if_pos hflag] at h
    exact lt_of_le_of_lt (multiPass_pool_le fuel _ _ h) (onePass_flag_true sheet pool hflag)

theorem multiPass_inv {W H : ℚ} : ∀ (fuel : ℕ) (sheet : Sheet) (pool : List Rectangle)
    {sheet1 : Sheet} {pool1 : List Rectangle},
    SheetInv W H sheet → (∀ a ∈ pool, 0 < a.width ∧ 0 < a.height) →
    multiPass fuel sheet pool = some (sheet1, pool1) → SheetInv W H sheet1
  | 0, _, _, _, _, _, _, h => by cases h
  | fuel + 1, sheet, pool, sheet1, pool1, hInv, hpool, h => by
    simp only [multiPass] at h
    split_ifs at h with hflag
    · exact multiPass_inv fuel _ _ (onePass_inv sheet pool hInv hpool)
        (fun a ha => hpool a (onePass_mem sheet pool a ha)) h
    · cases h
      exact onePass_inv sheet pool hInv hpool

theorem tryOrient_isSome (r : Rectangle) (i : ℕ) (s : Space) (o : Bool)
    (acc : Option BestAcc) (h : acc.isSome) : (tryOrient r i s o acc).isSome := by
  unfold tryOrient
  split_ifs <;> simp [h]

theorem fbsAux_isSome (r : Rectangle) : ∀ (l : List Space) (k : ℕ) (acc : Option BestAcc),
    acc.isSome → (fbsAux r l k acc).isSome
  | [], _, _, h => h
  | s :: rest, k, acc, h => by
    simp only [fbsAux, fbsStep]
    exact fbsAux_isSome r rest (k + 1) _
      (tryOrient_isSome r k s true _ (tryOrient_isSome r k s false acc h))

theorem fbsAux_none (r : Rectangle) : ∀ (l : List Space) (k : ℕ),
    fbsAux r l k none = none → ∀ s ∈ l, ∀ o, ¬ fitsOrient r s o
  | [], _, _ => by intro s hs; cases hs
  | s :: rest, k, h => by
    have hstep : fbsStep r k s none = none := by
      cases hs : fbsStep r k s none with
      | none => rfl
      | some b =>
        have h2 := fbsAux_isSome r rest (k + 1) _ (by simp [hs] :
          (fbsStep r k s none).isSome)
        rw [show fbsAux r (s :: rest) k none
          = fbsAux r rest (k + 1) (fbsStep r k s none) from rfl] at h
        rw [h] at h2
        cases h2
    have hacc1 : tryOrient r k s false none = none := by
      cases hs : tryOrient r k s false none with
      | none => rfl
      | some b =>
        have h2 := tryOrient_isSome r k s true _ (by simp [hs] :
          (tryOrient r k s false none).isSome)
        rw [show fbsStep r k s none
          = tryOrient r k s true (tryOrient r k s false none) from rfl] at hstep
        rw [hstep] at h2
        cases h2
    have hstep2 : tryOrient r k s true none = none := by
      rw [show fbsStep r k s none
        = tryOrient r k s true (tryOrient r k s false none) from rfl, hacc1] at hstep
      exact hstep
    intro t ht o ho
    rcases List.mem_cons.mp ht with rfl | ht
    · cases o
      · rw [show tryOrient r k t false none
          = some ⟨t, k, false, wasteOf r t⟩ from by
            unfold tryOrient
            rw [if_pos ⟨ho, trivial⟩]] at hacc1
        cases hacc1
      · rw [show tryOrient r k t true none
          = some ⟨t, k, true, wasteOf r t⟩ from by
            unfold tryOrient
            rw [if_pos ⟨ho, trivial⟩]] at hstep2
        cases hstep2
    · have hrec : fbsAux r rest (k + 1) none = none := by
        rw [show fbsAux r (s :: rest) k none
          = fbsAux r rest (k + 1) (fbsStep r k s none) from rfl, hstep] at h
        exact h
      exact fbsAux_none r rest (k + 1) hrec t ht o ho

/-- When `find_best_space` returns `none`, the piece fits no free region in
either orientation. -/
theorem find_best_space_none {sheet : Sheet} {r : Rectangle}
    (h : sheet.find_best_space r = none) :
    ∀ s ∈ sheet.spaces, ∀ o, ¬ fitsOrient r s o := by
  unfold Sheet.find_best_space at h
  rw [Option.map_eq_none'] at h
  exact fbsAux_none r sheet.spaces 0 h

/-- A piece rated fittable by the spec's criterion: it fits the stock sheet
in at least one orientation. -/
def fitsSheet (r : Rectangle) (stock : StockSheet) : Prop :=
  (r.width ≤ stock.width_mm ∧ r.height ≤ stock.height_mm)
  ∨ (r.height ≤ stock.width_mm ∧ r.width ≤ stock.height_mm)

instance (r : Rectangle) (stock : StockSheet) : Decidable (fitsSheet r stock) := by
  unfold fitsSheet; infer_instance

/-- On a fresh sheet, a fittable piece is always found a space. -/
theorem fresh_find_some {stock : StockSheet} {r : Rectangle} (hfit : fitsSheet r stock) :
    (Sheet.new stock).find_best_space r ≠ none := by
  intro hnone
  have hno := find_best_space_none hnone ⟨0, 0, stock.width_mm, stock.height_mm⟩
    (by simp [Sheet.new])
  rcases hfit with ⟨h1, h2⟩ | ⟨h1, h2⟩
  · exact hno false ⟨h1, h2⟩
  · by_cases hsq : r.width = r.height
    · exact hno false ⟨by rw [hsq]; exact h1, by rw [← hsq]; exact h2⟩
    · exact hno true ⟨hsq, h1, h2⟩

theorem packLoop_sheets {stock : StockSheet} (hv : stock.valid) :
    ∀ (fuel : ℕ) (pool : List Rectangle) (sheets out : List Sheet),
    (∀ a ∈ pool, 0 < a.width ∧ 0 < a.height) →
    (∀ sh ∈ sheets, SheetInv stock.width_mm stock.height_mm sh) →
    packLoop stock fuel pool sheets = some out →
    ∀ sh ∈ out, SheetInv stock.width_mm stock.height_mm sh
  | 0, _, _, _, _, _, h => by cases h
  | fuel + 1, pool, sheets, out, hpool, hsheets, h => by
    simp only [packLoop] at h
    split_ifs at h with hpe
    · cases h
      exact hsheets
    · cases hm : multiPass (pool.length + 1) (Sheet.new stock) pool with
      | none =>
        rw [hm] at h
        cases h
      | some x =>
        obtain ⟨sheet1, pool1⟩ := x
        rw [hm] at h
        refine packLoop_sheets hv fuel pool1 _ out ?_ ?_ h
        · exact fun a ha => hpool a (multiPass_mem _ _ _ hm a ha)
        · intro sh hsh
          rcases List.mem_append.mp hsh with hsh | hsh
          · exact hsheets sh hsh
          · rw [List.mem_singleton] at hsh
            subst hsh
            exact multiPass_inv _ _ _ (sheetInv_new stock hv) hpool hm

theorem packLoop_count {stock : StockSheet} : ∀ (fuel : ℕ) (pool : List Rectangle)
    (sheets out : List Sheet), packLoop stock fuel pool sheets = some out →
    (out.map fun sh => sh.placed_rectangles.length).sum
      = (sheets.map fun sh => sh.placed_rectangles.length).sum + pool.length
  | 0, _, _, _, h => by cases h
  | fuel + 1, pool, sheets, out, h => by
    simp only [packLoop] at h
    split_ifs at h with hpe
    · cases h
      have : pool = [] := List.isEmpty_iff.mp hpe
      simp [this]
    · cases hm : multiPass (pool.length + 1) (Sheet.new stock) pool with
      | none =>
        rw [hm] at h
        cases h
      | some x =>
        obtain ⟨sheet1, pool1⟩ := x
        rw [hm] at h
        have hrec := packLoop_count fuel pool1 (sheets ++ [sheet1]) out h
        have hcnt := multiPass_count _ _ _ hm
        have hnew : (Sheet.new stock).placed_rectangles.length = 0 := rfl
        rw [hrec]
        simp only [List.map_append, List.sum_append, List.map_cons, List.sum_cons,
          List.map_nil, List.sum_nil]
        omega

theorem packLoop_isSome {stock : StockSheet} : ∀ (fuel : ℕ) (pool : List Rectangle)
    (sheets : List Sheet), (∀ a ∈ pool, fitsSheet a stock) → pool.length < fuel →
    (packLoop stock fuel pool sheets).isSome
  | 0, _, _, _, h => absurd h (by omega)
  | fuel + 1, pool, sheets, hfit, h => by
    simp only [packLoop]
    split_ifs with hpe
    · simp
    · have hpool_ne : pool ≠ [] := by simpa [List.isEmpty_iff] using hpe
      obtain ⟨r, rest, rfl⟩ := List.exists_cons_of_ne_nil hpool_ne
      have hsome := multiPass_isSome ((r :: rest).length + 1) (Sheet.new stock)
        (r :: rest) (by omega)
      cases hm : multiPass ((r :: rest).length + 1) (Sheet.new stock) (r :: rest) with
      | none =>
        rw [hm] at hsome
        cases hsome
      | some x =>
        obtain ⟨sheet1, pool1⟩ := x
        have hflag : (onePass (Sheet.new stock) (r :: rest)).2.2 = true := by
          cases hfb : (Sheet.new stock).find_best_space r with
          | none => exact absurd hfb (fresh_find_some (hfit r (List.mem_cons_self r rest)))
          | some x =>
            obtain ⟨s, idx, rot⟩ := x
            simp [onePass, hfb]
        have hlt := multiPass_strict _ _ _ hflag hm
        exact packLoop_isSome fuel pool1 _
          (fun a ha => hfit a (multiPass_mem _ _ _ hm a ha))
          (by simp only [List.length_cons] at hlt h ⊢; omega)

theorem insertDesc_perm (a : Rectangle) : ∀ l : List Rectangle,
    (insertDesc a l).Perm (a :: l)
  | [] => List.Perm.refl _
  | b :: t => by
    unfold insertDesc
    split_ifs
    · exact List.Perm.refl _
    · exact ((insertDesc_perm a t).cons b).trans (List.Perm.swap a b t)

theorem sort_perm : ∀ l : List Rectangle, (sort_by_area l).Perm l
  | [] => List.Perm.refl _
  | a :: rest =>
    (insertDesc_perm a (sort_by_area rest)).trans ((sort_perm rest).cons a)

theorem sort_mem {l : List Rectangle} {a : Rectangle} : a ∈ sort_by_area l ↔ a ∈ l :=
  (sort_perm l).mem_iff

theorem sort_length (l : List Rectangle) : (sort_by_area l).length = l.length :=
  (sort_perm l).length_eq

theorem expand_length (pieces : List (ℚ × ℚ × ℕ)) :
    (expand_pieces pieces).length = totalQty pieces := by
  induction pieces with
  | nil => rfl
  | cons p rest ih =>
    simp only [expand_pieces, List.flatMap_cons, List.length_append,
      List.length_replicate, totalQty, List.map_cons, List.sum_cons] at *
    omega

theorem expand_mem {pieces : List (ℚ × ℚ × ℕ)} {a : Rectangle}
    (h : a ∈ expand_pieces pieces) : ∃ p ∈ pieces, a.width = p.1 ∧ a.height = p.2.1 := by
  unfold expand_pieces at h
  rw [List.mem_flatMap] at h
  obtain ⟨p, hp, ha⟩ := h
  rw [List.mem_replicate] at ha
  exact ⟨p, hp, by rw [ha.2], by rw [ha.2]⟩

/-! Full characterization of the best-fit search: minimal waste, first-region
tie-breaking, and unrotated-first orientation preference. -/

/-- Loop invariant of the search in `Sheet.find_best_space` after the first
`upto` spaces of `full` have been examined. -/
def AccInv (r : Rectangle) (full : List Space) (upto : ℕ) : Option BestAcc → Prop
  | none => ∀ j s, j < upto → full[j]? = some s → ∀ o, ¬ fitsOrient r s o
  | some b =>
      b.index < upto ∧ full[b.index]? = some b.space ∧ fitsOrient r b.space b.rotate ∧
      b.waste = wasteOf r b.space ∧
      (b.rotate = true → ¬ fitsOrient r b.space false) ∧
      (∀ j s, j < upto → full[j]? = some s → ∀ o, fitsOrient r s o →
        b.waste ≤ wasteOf r s) ∧
      (∀ j s, j < b.index → full[j]? = some s → ∀ o, fitsOrient r s o →
        b.waste < wasteOf r s)

theorem accInv_step (r : Rectangle) (full : List Space) (k : ℕ) (s : Space)
    (hk : full[k]? = some s) (acc : Option BestAcc) (hInv : AccInv r full k acc) :
    AccInv r full (k + 1) (fbsStep r k s acc) := by
  have hfbs : fbsStep r k s acc = tryOrient r k s true (tryOrient r k s false acc) := rfl
  cases acc with
  | none =>
    by_cases hf0 : fitsOrient r s false
    · have ha1 : tryOrient r k s false none = some ⟨s, k, false, wasteOf r s⟩ := by
        unfold tryOrient
        rw [if_pos ⟨hf0, trivial⟩]
      have hres : fbsStep r k s none = some ⟨s, k, false, wasteOf r s⟩ := by
        rw [hfbs, ha1]
        unfold tryOrient
        rw [if_neg]
        rintro ⟨-, h2⟩
        exact lt_irrefl _ h2
      rw [hres]
      refine ⟨Nat.lt_succ_self k, hk, hf0, rfl, by rintro ⟨⟩, ?_, ?_⟩
      · intro j s' hj hjs o ho
        have : j < k ∨ j = k := by omega
        rcases this with hlt | rfl
        · exact absurd ho (hInv j s' hlt hjs o)
        · rw [hk] at hjs
          cases hjs
          exact le_refl _
      · intro j s' hj hjs o ho
        exact absurd ho (hInv j s' hj hjs o)
    · by_cases hf1 : fitsOrient r s true
      · have ha1 : tryOrient r k s false none = none := by
          unfold tryOrient
          rw [if_neg]
          rintro ⟨h1, -⟩
          exact hf0 h1
        have hres : fbsStep r k s none = some ⟨s, k, true, wasteOf r s⟩ := by
          rw [hfbs, ha1]
          unfold tryOrient
          rw [if_pos ⟨hf1, trivial⟩]
        rw [hres]
        refine ⟨Nat.lt_succ_self k, hk, hf1, rfl, fun _ => hf0, ?_, ?_⟩
        · intro j s' hj hjs o ho
          have : j < k ∨ j = k := by omega
          rcases this with hlt | rfl
          · exact absurd ho (hInv j s' hlt hjs o)
          · rw [hk] at hjs
            cases hjs
            exact le_refl _
        · intro j s' hj hjs o ho
          exact absurd ho (hInv j s' hj hjs o)
      · have ha1 : tryOrient r k s false none = none := by
          unfold tryOrient
          rw [if_neg]
          rintro ⟨h1, -⟩
          exact hf0 h1
        have hres : fbsStep r k s none = none := by
          rw [hfbs, ha1]
          unfold tryOrient
          rw [if_neg]
          rintro ⟨h1, -⟩
          exact hf1 h1
        rw [hres]
        intro j s' hj hjs o
        have : j < k ∨ j = k := by omega
        rcases this with hlt | rfl
        · exact hInv j s' hlt hjs o
        · rw [hk] at hjs
          cases hjs
          cases o
          · exact hf0
          · exact hf1
  | some b =>
    obtain ⟨hbi, hbs, hbf, hbw, hbr, hmin, hstrict⟩ := hInv
    have hextend : ∀ c : BestAcc, c = b →
        AccInv r full (k + 1) (some c) ∨ True := fun _ _ => Or.inr trivial
    by_cases hf0 : fitsOrient r s false
    · rcases lt_or_ge (wasteOf r s) b.waste with hlt | hge
      · have ha1 : tryOrient r k s false (some b) = some ⟨s, k, false, wasteOf r s⟩ := by
          unfold tryOrient
          rw [if_pos ⟨hf0, hlt⟩]
        have hres : fbsStep r k s (some b) = some ⟨s, k, false, wasteOf r s⟩ := by
          rw [hfbs, ha1]
          unfold tryOrient
          rw [if_neg]
          rintro ⟨-, h2⟩
          exact lt_irrefl _ h2
        rw [hres]
        refine ⟨Nat.lt_succ_self k, hk, hf0, rfl, by rintro ⟨⟩, ?_, ?_⟩
        · intro j s' hj hjs o ho
          have : j < k ∨ j = k := by omega
          rcases this with hlt' | rfl
          · exact le_trans (le_of_lt hlt) (hmin j s' hlt' hjs o ho)
          · rw [hk] at hjs
            cases hjs
            exact le_refl _
        · intro j s' hj hjs o ho
          exact lt_of_lt_of_le hlt (hmin j s' hj hjs o ho)
      · have ha1 : tryOrient r k s false (some b) = some b := by
          unfold tryOrient
          rw [if_neg]
          rintro ⟨-, h2⟩
          exact absurd h2 (not_lt.mpr hge)
        have hres : fbsStep r k s (some b) = some b := by
          rw [hfbs, ha1]
          unfold tryOrient
          rw [if_neg]
          rintro ⟨-, h2⟩
          exact absurd h2 (not_lt.mpr hge)
        rw [hres]
        refine ⟨by omega, hbs, hbf, hbw, hbr, ?_, hstrict⟩
        intro j s' hj hjs o ho
        have : j < k ∨ j = k := by omega
        rcases this with hlt' | rfl
        · exact hmin j s' hlt' hjs o ho
        · rw [hk] at hjs
          cases hjs
          exact hge
    · by_cases hf1 : fitsOrient r s true
      · have ha1 : tryOrient r k s false (some b) = some b := by
          unfold tryOrient
          rw [if_neg]
          rintro ⟨h1, -⟩
          exact hf0 h1
        rcases lt_or_ge (wasteOf r s) b.waste with hlt | hge
        · have hres : fbsStep r k s (some b) = some ⟨s, k, true, wasteOf r s⟩ := by
            rw [hfbs, ha1]
            unfold tryOrient
            rw [if_pos ⟨hf1, hlt⟩]
          rw [hres]
          refine ⟨Nat.lt_succ_self k, hk, hf1, rfl, fun _ => hf0, ?_, ?_⟩
          · intro j s' hj hjs o ho
            have : j < k ∨ j = k := by omega
            rcases this with hlt' | rfl
            · exact le_trans (le_of_lt hlt) (hmin j s' hlt' hjs o ho)
            · rw [hk] at hjs
              cases hjs
              exact le_refl _
          · intro j s' hj hjs o ho
            exact lt_of_lt_of_le hlt (hmin j s' hj hjs o ho)
        · have hres : fbsStep r k s (some b) = some b := by
            rw [hfbs, ha1]
            unfold tryOrient
            rw [if_neg]
            rintro ⟨-, h2⟩
            exact absurd h2 (not_lt.mpr hge)
          rw [hres]
          refine ⟨by omega, hbs, hbf, hbw, hbr, ?_, hstrict⟩
          intro j s' hj hjs o ho
          have : j < k ∨ j = k := by omega
          rcases this with hlt' | rfl
          · exact hmin j s' hlt' hjs o ho
          · rw [hk] at hjs
            cases hjs
            exact hge
      · have ha1 : tryOrient r k s false (some b) = some b := by
          unfold tryOrient
          rw [if_neg]
          rintro ⟨h1, -⟩
          exact hf0 h1
        have hres : fbsStep r k s (some b) = some b := by
          rw [hfbs, ha1]
          unfold tryOrient
          rw [if_neg]
          rintro ⟨h1, -⟩
          exact hf1 h1
        rw [hres]
        refine ⟨by omega, hbs, hbf, hbw, hbr, ?_, hstrict⟩
        intro j s' hj hjs o ho
        have : j < k ∨ j = k := by omega
        rcases this with hlt' | rfl
        · exact hmin j s' hlt' hjs o ho
        · rw [hk] at hjs
          cases hjs
          cases o
          · exact absurd ho hf0
          · exact absurd ho hf1

theorem fbsAux_accInv (r : Rectangle) (full : List Space) :
    ∀ (l : List Space) (k : ℕ) (acc : Option BestAcc),
      (∀ j, l[j]? = full[k + j]?) → AccInv r full k acc →
      AccInv r full (k + l.length) (fbsAux r l k acc)
  | [], k, acc, _, hInv => by simpa using hInv
  | s :: rest, k, acc, hsuffix, hInv => by
    have hk : full[k]? = some s := by
      have h0 := hsuffix 0
      simp only [List.getElem?_cons_zero, Nat.add_zero] at h0
      exact h0.symm
    have hstep := accInv_step r full k s hk acc hInv
    have hrec := fbsAux_accInv r full rest (k + 1) (fbsStep r k s acc)
      (fun j => by
        have hj := hsuffix (j + 1)
        simp only [List.getElem?_cons_succ] at hj
        rw [hj]
        congr 1
        omega) hstep
    rw [show k + 1 + rest.length = k + (s :: rest).length from by
      simp [List.length_cons]; omega] at hrec
    exact hrec

/-- The search invariant holds for the completed run of `find_best_space`. -/
theorem fbsAux_final (sheet : Sheet) (r : Rectangle) :
    AccInv r sheet.spaces sheet.spaces.length (fbsAux r sheet.spaces 0 none) := by
  have h := fbsAux_accInv r sheet.spaces sheet.spaces 0 none (fun j => by simp)
    (by intro j s hj; omega)
  simpa using h

/-! Divergence of the packing loop on unfittable pieces, and run-level facts. -/

/-- A piece that fits the stock sheet in no orientation is never found a
space on any sheet satisfying the packing invariant. -/
theorem bad_never_found {stock : StockSheet} {sheet : Sheet} {bad : Rectangle}
    (hInv : SheetInv stock.width_mm stock.height_mm sheet)
    (hbad : ¬ fitsSheet bad stock) : sheet.find_best_space bad = none := by
  cases h : sheet.find_best_space bad with
  | none => rfl
  | some x =>
    obtain ⟨s, idx, rot⟩ := x
    obtain ⟨hidx, hfit⟩ := find_best_space_sound h
    have smem := List.getElem?_mem hidx
    obtain ⟨hsx, hsy, hsxw, hsyh⟩ := hInv.spaces_in s smem
    exfalso
    apply hbad
    cases rot
    · exact Or.inl ⟨le_trans hfit.1 (by linarith), le_trans hfit.2 (by linarith)⟩
    · exact Or.inr ⟨le_trans hfit.2.1 (by linarith), le_trans hfit.2.2 (by linarith)⟩

theorem onePass_keeps {stock : StockSheet} {bad : Rectangle} (hbad : ¬ fitsSheet bad stock) :
    ∀ (pool : List Rectangle) (sheet : Sheet),
    SheetInv stock.width_mm stock.height_mm sheet →
    (∀ a ∈ pool, 0 < a.width ∧ 0 < a.height) →
    bad ∈ pool → bad ∈ (onePass sheet pool).2.1
  | [], _, _, _, hmem => by cases hmem
  | r :: rest, sheet, hInv, hpos, hmem => by
    rcases List.mem_cons.mp hmem with rfl | hmem
    · have hnone := bad_never_found hInv hbad
      simp only [onePass, hnone]
      exact List.mem_cons_self _ _
    · cases h : sheet.find_best_space r with
      | some x =>
        obtain ⟨s, idx, rot⟩ := x
        obtain ⟨hidx, hfit⟩ := find_best_space_sound h
        obtain ⟨hw, hh⟩ := hpos r (List.mem_cons_self r rest)
        simp only [onePass, h]
        exact onePass_keeps hbad rest _ (place_preserves hInv hw hh hidx hfit)
          (fun a ha => hpos a (List.mem_cons_of_mem r ha)) hmem
      | none =>
        simp only [onePass, h]
        exact List.mem_cons_of_mem r (onePass_keeps hbad rest sheet hInv
          (fun a ha => hpos a (List.mem_cons_of_mem r ha)) hmem)

theorem multiPass_keeps {stock : StockSheet} {bad : Rectangle} (hbad : ¬ fitsSheet bad stock) :
    ∀ (fuel : ℕ) (sheet : Sheet) (pool : List Rectangle) {sheet1 : Sheet}
      {pool1 : List Rectangle},
    SheetInv stock.width_mm stock.height_mm sheet →
    (∀ a ∈ pool, 0 < a.width ∧ 0 < a.height) → bad ∈ pool →
    multiPass fuel sheet pool = some (sheet1, pool1) → bad ∈ pool1
  | 0, _, _, _, _, _, _, _, h => by cases h
  | fuel + 1, sheet, pool, sheet1, pool1, hInv, hpos, hmem, h => by
    simp only [multiPass] at h
    split_ifs at h with hflag
    · exact multiPass_keeps hbad fuel _ _ (onePass_inv sheet pool hInv hpos)
        (fun a ha => hpos a (onePass_mem sheet pool a ha))
        (onePass_keeps hbad pool sheet hInv hpos hmem) h
    · cases h
      exact onePass_keeps hbad pool sheet hInv hpos hmem

/-- With an unfittable piece in the pool the outer sheet loop never ends:
for every fuel value the fuelled loop runs out (the Python loop diverges,
opening a fresh sheet on every iteration). -/
theorem pack_diverges {stock : StockSheet} {bad : Rectangle} (hv : stock.valid)
    (hbad : ¬ fitsSheet bad stock) :
    ∀ (fuel : ℕ) (pool : List Rectangle) (sheets : List Sheet),
    (∀ a ∈ pool, 0 < a.width ∧ 0 < a.height) → bad ∈ pool →
    packLoop stock fuel pool sheets = none
  | 0, _, _, _, _ => rfl
  | fuel + 1, pool, sheets, hpos, hmem => by
    have hne : pool.isEmpty = false := by
      cases pool
      · cases hmem
      · rfl
    simp only [packLoop]
    rw [if_neg (by simp [hne])]
    cases hm : multiPass (pool.length + 1) (Sheet.new stock) pool with
    | none => rfl
    | some x =>
      obtain ⟨sheet1, pool1⟩ := x
      exact pack_diverges hv hbad fuel pool1 (sheets ++ [sheet1])
        (fun a ha => hpos a (multiPass_mem _ _ _ hm a ha))
        (multiPass_keeps hbad _ _ _ (sheetInv_new stock hv) hpos hmem hm)

/-- Every sheet returned by a successful `optimize_cutting` run satisfies the
packing invariant. -/
theorem optimize_inv {fuel : ℕ} {stock : StockSheet} {pieces : List (ℚ × ℚ × ℕ)}
    {sheets : List Sheet} (hv : stock.valid)
    (hp : ∀ p ∈ pieces, 0 < p.1 ∧ 0 < p.2.1)
    (hrun : optimize_cutting fuel stock pieces = some sheets) :
    ∀ sh ∈ sheets, SheetInv stock.width_mm stock.height_mm sh := by
  unfold optimize_cutting at hrun
  refine packLoop_sheets hv fuel _ [] sheets ?_ (by intro sh hsh; cases hsh) hrun
  intro a ha
  obtain ⟨p, hp', hw, hh⟩ := expand_mem (sort_mem.mp ha)
  obtain ⟨h1, h2⟩ := hp p hp'
  exact ⟨by rw [hw]; exact h1, by rw [hh]; exact h2⟩

/-- Free regions are exactly the complement of the placed pieces inside the
sheet, given the invariant. -/
theorem inv_complement {W H : ℚ} {sheet : Sheet} (hInv : SheetInv W H sheet) :
    unionOver Space.set sheet.spaces
      = boxSet 0 0 W H \ unionOver PlacedRect.set sheet.placed_rectangles := by
  have hd : Disjoint (unionOver Space.set sheet.spaces)
      (unionOver PlacedRect.set sheet.placed_rectangles) :=
    disjoint_unionOver _ fun a ha =>
      (disjoint_unionOver _ fun p hp => (hInv.cross_disj a ha p hp).symm).symm
  ext pt
  have hcov := Set.ext_iff.mp hInv.cover pt
  simp only [Set.mem_union] at hcov
  simp only [Set.mem_diff]
  constructor
  · intro hpt
    refine ⟨hcov.mp (Or.inl hpt), ?_⟩
    intro hpt'
    exact Set.disjoint_left.mp hd hpt hpt'
  · rintro ⟨hbox, hnp⟩
    rcases hcov.mpr hbox with h | h
    · exact h
    · exact absurd h hnp

theorem round_mono_q {a b : ℚ} (h : a ≤ b) : round a ≤ round b := by
  rw [round_eq, round_eq]
  exact Int.floor_le_floor (by linarith)

theorem round2_nonneg {q : ℚ} (h : 0 ≤ q) : 0 ≤ round2 q := by
  unfold round2
  apply div_nonneg _ (by norm_num)
  have h0 : round (0 : ℚ) ≤ round (q * 100) := round_mono_q (by linarith)
  rw [round_zero] at h0
  exact_mod_cast h0

theorem round2_le_100 {q : ℚ} (h : q ≤ 100) : round2 q ≤ 100 := by
  unfold round2
  rw [div_le_iff₀ (by norm_num : (0:ℚ) < 100)]
  have h1 : round (q * 100) ≤ round ((10000 : ℚ)) := round_mono_q (by linarith)
  have h2 : round ((10000 : ℚ)) = 10000 := by
    have hc : ((10000 : ℤ) : ℚ) = (10000 : ℚ) := by norm_num
    rw [← hc, round_intCast]
  rw [h2] at h1
  calc (round (q * 100) : ℚ) ≤ ((10000 : ℤ) : ℚ) := by exact_mod_cast h1
  _ = 100 * 100 := by norm_num

/-! Claim theorems. -/

/-- C1: the spec demands that `optimize` fail with `UnfittablePiece` before any
sheet is created when a piece fits the stock sheet in neither orientation.
The code has no such validation: on the concrete failing input (material
`CL6`, demand `[(4000, 100, 1)]`, spec scenario 2) the packing loop never
terminates — the fuelled embedding returns `none` for every fuel value,
i.e. the Python loop opens sheets forever and never raises. -/
theorem claim_C1_unfittable_diverges :
    get_stock_sheet "CL6" = some ⟨6, 3300, 2600⟩ ∧
    ∀ fuel, optimize_cutting fuel ⟨6, 3300, 2600⟩ [(4000, 100, 1)] = none := by
  constructor
  · rfl
  · intro fuel
    unfold optimize_cutting
    have hpool : sort_by_area (expand_pieces [(4000, 100, 1)]) = [⟨4000, 100⟩] := rfl
    rw [hpool]
    exact pack_diverges (by decide) (by decide) fuel [⟨4000, 100⟩] []
      (by decide) (List.mem_singleton.mpr rfl)

/-- C2: every placed piece of every returned sheet lies inside the sheet
(`0 ≤ x`, `0 ≤ y`, `x + effWidth ≤ sheetWidth`, `y + effHeight ≤ sheetHeight`),
and the footprint committed by a placement lies inside the free region the
best-fit search selected for it. -/
theorem claim_C2_placements_in_bounds {fuel : ℕ} {stock : StockSheet}
    {pieces : List (ℚ × ℚ × ℕ)} {sheets : List Sheet} (hv : stock.valid)
    (hp : ∀ p ∈ pieces, 0 < p.1 ∧ 0 < p.2.1)
    (hrun : optimize_cutting fuel stock pieces = some sheets) :
    (∀ sh ∈ sheets, ∀ q ∈ sh.placed_rectangles,
      0 ≤ q.x ∧ 0 ≤ q.y ∧ q.x + q.effWidth ≤ sh.width ∧ q.y + q.effHeight ≤ sh.height) ∧
    (∀ (sheet : Sheet) (r : Rectangle) (s : Space) (idx : ℕ) (rot : Bool),
      sheet.find_best_space r = some (s, idx, rot) →
      PlacedRect.set ⟨r.width, r.height, rot, s.x, s.y⟩ ⊆ s.set) := by
  constructor
  · intro sh hsh q hq
    have hInv := optimize_inv hv hp hrun sh hsh
    obtain ⟨h1, h2, h3, h4⟩ := hInv.placed_in q hq
    rw [hInv.width_eq, hInv.height_eq]
    exact ⟨h1, h2, h3, h4⟩
  · intro sheet r s idx rot h
    obtain ⟨-, hfit⟩ := find_best_space_sound h
    obtain ⟨hfw, hfh⟩ := fits_dims hfit
    have hset : PlacedRect.set ⟨r.width, r.height, rot, s.x, s.y⟩
        = boxSet s.x s.y (r.get_dimensions rot).1 (r.get_dimensions rot).2 := by
      cases rot <;> rfl
    rw [hset]
    exact boxSet_subset (le_refl _) (le_refl _) (by linarith) (by linarith)

/-- C3: on every sheet returned by `optimize_cutting`, the footprints of the
placed pieces (effective dimensions at committed positions) are pairwise
disjoint. -/
theorem claim_C3_no_overlap {fuel : ℕ} {stock : StockSheet}
    {pieces : List (ℚ × ℚ × ℕ)} {sheets : List Sheet} (hv : stock.valid)
    (hp : ∀ p ∈ pieces, 0 < p.1 ∧ 0 < p.2.1)
    (hrun : optimize_cutting fuel stock pieces = some sheets) :
    ∀ sh ∈ sheets, sh.placed_rectangles.Pairwise fun a b => Disjoint a.set b.set :=
  fun sh hsh => (optimize_inv hv hp hrun sh hsh).placed_disj

/-- C4: when every piece fits the stock sheet in some orientation,
`optimize_cutting` terminates (fuel `totalQty + 1` returns a result) and the
total number of placed pieces across the returned sheets equals the sum of the
requested quantities — no piece is lost and none is duplicated. -/
theorem claim_C4_conservation (stock : StockSheet) (pieces : List (ℚ × ℚ × ℕ))
    (hfit : ∀ p ∈ pieces, fitsSheet ⟨p.1, p.2.1⟩ stock) :
    (optimize_cutting (totalQty pieces + 1) stock pieces).map
      (fun sheets => (sheets.map fun sh => sh.placed_rectangles.length).sum)
      = some (totalQty pieces) := by
  unfold optimize_cutting
  have hplen : (sort_by_area (expand_pieces pieces)).length = totalQty pieces := by
    rw [sort_length, expand_length]
  have hfit' : ∀ a ∈ sort_by_area (expand_pieces pieces), fitsSheet a stock := by
    intro a ha
    obtain ⟨p, hp, hw, hh⟩ := expand_mem (sort_mem.mp ha)
    have hf := hfit p hp
    unfold fitsSheet at hf ⊢
    rw [hw, hh]
    exact hf
  have hsome := packLoop_isSome (totalQty pieces + 1) (sort_by_area (expand_pieces pieces))
    [] hfit' (by omega)
  cases hrun : packLoop stock (totalQty pieces + 1) (sort_by_area (expand_pieces pieces)) []
    with
  | none =>
    rw [hrun] at hsome
    cases hsome
  | some out =>
    have hcnt := packLoop_count _ _ [] out hrun
    simp only [Option.map_some', Option.some.injEq]
    rw [hcnt, hplen]
    simp

/-- C5: the best-fit search evaluates the unrotated fit and, when rotation is
allowed, the rotated fit over every current free region, rates each fitting
orientation by waste `region.area − piece.area`, and returns a minimum-waste
(region, orientation) pair, breaking ties in favour of the first-encountered
region in list order; it returns `none` exactly when no orientation fits any
region. -/
theorem claim_C5_best_fit (sheet : Sheet) (r : Rectangle) :
    (sheet.find_best_space r = none ↔
      ∀ (j : ℕ) (s : Space), sheet.spaces[j]? = some s → ∀ o, ¬ fitsOrient r s o) ∧
    (∀ (s : Space) (idx : ℕ) (rot : Bool), sheet.find_best_space r = some (s, idx, rot) →
      sheet.spaces[idx]? = some s ∧ fitsOrient r s rot ∧
      wasteOf r s = s.width * s.height - r.width * r.height ∧
      (∀ (j : ℕ) (s' : Space) (o : Bool), sheet.spaces[j]? = some s' → fitsOrient r s' o →
        wasteOf r s ≤ wasteOf r s') ∧
      (∀ (j : ℕ) (s' : Space) (o : Bool), j < idx → sheet.spaces[j]? = some s' →
        fitsOrient r s' o → wasteOf r s < wasteOf r s')) := by
  have hfin := fbsAux_final sheet r
  constructor
  · constructor
    · intro hnone
      unfold Sheet.find_best_space at hnone
      rw [Option.map_eq_none'] at hnone
      rw [hnone] at hfin
      intro j s hjs o
      have hj : j < sheet.spaces.length := (List.getElem?_eq_some.mp hjs).1
      exact hfin j s hj hjs o
    · intro hnofit
      cases h : sheet.find_best_space r with
      | none => rfl
      | some x =>
        obtain ⟨s, idx, rot⟩ := x
        obtain ⟨hidx, hfit⟩ := find_best_space_sound h
        exact absurd hfit (hnofit idx s hidx rot)
  · intro s idx rot h
    unfold Sheet.find_best_space at h
    rw [Option.map_eq_some'] at h
    obtain ⟨b, hb, hmap⟩ := h
    rw [hb] at hfin
    obtain ⟨hbi, hbs, hbf, hbw, hbr, hmin, hstrict⟩ := hfin
    simp only [Prod.mk.injEq] at hmap
    obtain ⟨hsp, hix, hrt⟩ := hmap
    subst hsp
    subst hix
    subst hrt
    refine ⟨hbs, hbf, rfl, ?_, ?_⟩
    · intro j s' o hjs ho
      have hj : j < sheet.spaces.length := (List.getElem?_eq_some.mp hjs).1
      have hm := hmin j s' hj hjs o ho
      rwa [hbw] at hm
    · intro j s' o hj hjs ho
      have hm := hstrict j s' hj hjs o ho
      rwa [hbw] at hm

/-- C6: committing a placement removes the winning region from the free list
and appends at most two regions: when the footprint is strictly narrower, a
right region of width `region.width − footprint.width` and the region's full
height; when strictly shorter, a region below of the footprint's width (not
the region's full width) and the leftover height. -/
theorem claim_C6_split_regions (sheet : Sheet) (r : Rectangle) (rot : Bool) (s : Space)
    (idx : ℕ) (hidx : sheet.spaces[idx]? = some s) :
    (sheet.place_rectangle r rot s idx).spaces
      = sheet.spaces.eraseIdx idx
        ++ (if (r.get_dimensions rot).1 < s.width
            then [⟨s.x + (r.get_dimensions rot).1, s.y,
                   s.width - (r.get_dimensions rot).1, s.height⟩] else [])
        ++ (if (r.get_dimensions rot).2 < s.height
            then [⟨s.x, s.y + (r.get_dimensions rot).2,
                   (r.get_dimensions rot).1, s.height - (r.get_dimensions rot).2⟩] else [])
    ∧ (sheet.place_rectangle r rot s idx).spaces.length + 1
        = sheet.spaces.length
          + (if (r.get_dimensions rot).1 < s.width then 1 else 0)
          + (if (r.get_dimensions rot).2 < s.height then 1 else 0) := by
  have hlt : idx < sheet.spaces.length := (List.getElem?_eq_some.mp hidx).1
  refine ⟨place_spaces sheet r rot s idx, ?_⟩
  rw [place_spaces]
  simp only [List.length_append]
  rw [List.length_eraseIdx_of_lt hlt]
  split_ifs <;> simp <;> omega

/-- C7: for every sheet returned by `optimize_cutting`, the reported
efficiency equals `round(usedArea / totalArea * 100, 2)` with
`usedArea = Σ width·height` over placed pieces and `totalArea` the sheet
area; the denominator is strictly positive (a division by zero can never
occur for a returned sheet), and the efficiency lies in `[0, 100]`. -/
theorem claim_C7_efficiency {fuel : ℕ} {stock : StockSheet}
    {pieces : List (ℚ × ℚ × ℕ)} {sheets : List Sheet} (hv : stock.valid)
    (hp : ∀ p ∈ pieces, 0 < p.1 ∧ 0 < p.2.1)
    (hrun : optimize_cutting fuel stock pieces = some sheets) :
    ∀ sh ∈ sheets,
      (convert_sheet_to_dict sh).efficiency
        = round2 (sh.used_area / (sh.width * sh.height) * 100) ∧
      0 < sh.width * sh.height ∧
      0 ≤ (convert_sheet_to_dict sh).efficiency ∧
      (convert_sheet_to_dict sh).efficiency ≤ 100 := by
  intro sh hsh
  have hInv := optimize_inv hv hp hrun sh hsh
  have htot : 0 < sh.width * sh.height := by
    rw [hInv.width_eq, hInv.height_eq]
    exact mul_pos hInv.hW hInv.hH
  have hsp : 0 ≤ spaceAreas sh.spaces := by
    apply List.sum_nonneg
    intro x hx
    rw [List.mem_map] at hx
    obtain ⟨a, ha, rfl⟩ := hx
    obtain ⟨h1, h2⟩ := hInv.spaces_pos a ha
    exact mul_nonneg (le_of_lt h1) (le_of_lt h2)
  have hpl : 0 ≤ sh.used_area := by
    apply List.sum_nonneg
    intro x hx
    rw [List.mem_map] at hx
    obtain ⟨a, ha, rfl⟩ := hx
    obtain ⟨h1, h2⟩ := hInv.placed_pos a ha
    exact mul_nonneg (le_of_lt h1) (le_of_lt h2)
  have hle : sh.used_area ≤ sh.width * sh.height := by
    rw [hInv.width_eq, hInv.height_eq, ← hInv.area_sum]
    have : sh.used_area = placedAreas sh.placed_rectangles := rfl
    linarith
  have he0 : 0 ≤ sh.used_area / (sh.width * sh.height) * 100 :=
    mul_nonneg (div_nonneg hpl (le_of_lt htot)) (by norm_num)
  have he1 : sh.used_area / (sh.width * sh.height) * 100 ≤ 100 := by
    have hq : sh.used_area / (sh.width * sh.height) ≤ 1 := (div_le_one htot).mpr hle
    linarith
  exact ⟨rfl, htot, round2_nonneg he0, round2_le_100 he1⟩

/-- C8: every placed piece that is square (`width = height`) has
`rotated = false`; equivalently, rotation is applied only to pieces whose
width differs from their height. -/
theorem claim_C8_squares_never_rotated {fuel : ℕ} {stock : StockSheet}
    {pieces : List (ℚ × ℚ × ℕ)} {sheets : List Sheet} (hv : stock.valid)
    (hp : ∀ p ∈ pieces, 0 < p.1 ∧ 0 < p.2.1)
    (hrun : optimize_cutting fuel stock pieces = some sheets) :
    ∀ sh ∈ sheets, ∀ q ∈ sh.placed_rectangles,
      (q.width = q.height → q.rotated = false) ∧
      (q.rotated = true → q.width ≠ q.height) := by
  intro sh hsh q hq
  have hrn := (optimize_inv hv hp hrun sh hsh).rot_ne q hq
  constructor
  · intro heq
    cases hqr : q.rotated
    · rfl
    · exact absurd heq (hrn hqr)
  · exact hrn

/-- C9: at every point during packing the free regions of a sheet are
pairwise disjoint and their union is exactly the sheet area not covered by
placed pieces: this holds for every returned sheet, and is preserved by every
single placement step (the code's guillotine split is exact — strictly
stronger than the spec's allowance for over-covering stale regions). -/
theorem claim_C9_free_regions_partition {fuel : ℕ} {stock : StockSheet}
    {pieces : List (ℚ × ℚ × ℕ)} {sheets : List Sheet} (hv : stock.valid)
    (hp : ∀ p ∈ pieces, 0 < p.1 ∧ 0 < p.2.1)
    (hrun : optimize_cutting fuel stock pieces = some sheets) :
    (∀ sh ∈ sheets,
      sh.spaces.Pairwise (fun a b => Disjoint a.set b.set) ∧
      unionOver Space.set sh.spaces
        = boxSet 0 0 sh.width sh.height
          \ unionOver PlacedRect.set sh.placed_rectangles) ∧
    (∀ (W H : ℚ) (sheet : Sheet) (r : Rectangle) (rot : Bool) (s : Space) (idx : ℕ),
      SheetInv W H sheet → 0 < r.width → 0 < r.height →
      sheet.spaces[idx]? = some s → fitsOrient r s rot →
      (sheet.place_rectangle r rot s idx).spaces.Pairwise
        (fun a b => Disjoint a.set b.set) ∧
      unionOver Space.set (sheet.place_rectangle r rot s idx).spaces
        = boxSet 0 0 W H
          \ unionOver PlacedRect.set (sheet.place_rectangle r rot s idx).placed_rectangles) := by
  constructor
  · intro sh hsh
    have hInv := optimize_inv hv hp hrun sh hsh
    refine ⟨hInv.spaces_disj, ?_⟩
    rw [hInv.width_eq, hInv.height_eq]
    exact inv_complement hInv
  · intro W H sheet r rot s idx hInv hw hh hidx hfit
    have hInv2 := place_preserves hInv hw hh hidx hfit
    exact ⟨hInv2.spaces_disj, inv_complement hInv2⟩

/-- C10: whenever the best-fit search selects the rotated orientation for the
chosen region, the piece does not fit that region unrotated — both
orientations of a region carry equal waste, the unrotated fit is tested
first, and the accumulator only updates on strictly smaller waste. -/
theorem claim_C10_rotated_only_when_needed (sheet : Sheet) (r : Rectangle) (s : Space)
    (idx : ℕ) (h : sheet.find_best_space r = some (s, idx, true)) :
    ¬ (r.width ≤ s.width ∧ r.height ≤ s.height) := by
  have hfin := fbsAux_final sheet r
  unfold Sheet.find_best_space at h
  rw [Option.map_eq_some'] at h
  obtain ⟨b, hb, hmap⟩ := h
  rw [hb] at hfin
  obtain ⟨-, -, -, -, hbr, -, -⟩ := hfin
  simp only [Prod.mk.injEq] at hmap
  obtain ⟨hsp, -, hrt⟩ := hmap
  subst hsp
  exact hbr hrt

/-! Concrete witnesses: a small stock sheet and demand whose packing run is
evaluated inside the kernel. -/

/-- A small valid stock sheet used by the witnesses. -/
def witnessStock : StockSheet := ⟨1, 10, 10⟩

/-- A small demand list used by the witnesses. -/
def witnessPieces : List (ℚ × ℚ × ℕ) := [(4, 10, 1), (6, 5, 1)]

/-- The sheet produced by packing `witnessPieces` onto `witnessStock`. -/
def witnessSheet : Sheet :=
  ⟨10, 10, 1, [⟨4, 10, false, 0, 0⟩, ⟨6, 5, false, 4, 0⟩], [⟨4, 5, 6, 5⟩]⟩

set_option maxRecDepth 40000 in
theorem witness_run : optimize_cutting 3 witnessStock witnessPieces
    = some [witnessSheet] := by
  with_unfolding_all decide

theorem claim_C2_witness :
    witnessStock.valid ∧ (∀ p ∈ witnessPieces, 0 < p.1 ∧ 0 < p.2.1) ∧
    ∀ q ∈ witnessSheet.placed_rectangles,
      0 ≤ q.x ∧ 0 ≤ q.y ∧ q.x + q.effWidth ≤ witnessSheet.width ∧
        q.y + q.effHeight ≤ witnessSheet.height :=
  ⟨by decide, by decide,
    (claim_C2_placements_in_bounds (by decide) (by decide) witness_run).1 witnessSheet
      (List.mem_singleton.mpr rfl)⟩

theorem claim_C3_witness :
    witnessStock.valid ∧
    witnessSheet.placed_rectangles.Pairwise fun a b => Disjoint a.set b.set :=
  ⟨by decide, claim_C3_no_overlap (by decide) (by decide) witness_run witnessSheet
    (List.mem_singleton.mpr rfl)⟩

theorem claim_C4_witness :
    (∀ p ∈ witnessPieces, fitsSheet ⟨p.1, p.2.1⟩ witnessStock) ∧
    (optimize_cutting (totalQty witnessPieces + 1) witnessStock witnessPieces).map
      (fun sheets => (sheets.map fun sh => sh.placed_rectangles.length).sum)
      = some (totalQty witnessPieces) :=
  ⟨by decide, claim_C4_conservation witnessStock witnessPieces (by decide)⟩

set_option maxRecDepth 40000 in
theorem claim_C5_witness :
    Sheet.find_best_space ⟨20, 20, 1, [], [⟨0, 0, 10, 10⟩, ⟨0, 10, 6, 7⟩]⟩ ⟨5, 6⟩
      = some (⟨0, 10, 6, 7⟩, 1, false) ∧
    wasteOf ⟨5, 6⟩ ⟨0, 10, 6, 7⟩ ≤ wasteOf ⟨5, 6⟩ ⟨0, 0, 10, 10⟩ :=
  ⟨by with_unfolding_all decide,
    ((claim_C5_best_fit ⟨20, 20, 1, [], [⟨0, 0, 10, 10⟩, ⟨0, 10, 6, 7⟩]⟩ ⟨5, 6⟩).2
      ⟨0, 10, 6, 7⟩ 1 false (by with_unfolding_all decide)).2.2.2.1 0
      ⟨0, 0, 10, 10⟩ false (by decide) (by decide)⟩

set_option maxRecDepth 40000 in
theorem claim_C6_witness :
    (Sheet.new witnessStock).spaces[0]? = some ⟨0, 0, 10, 10⟩ ∧
    ((Sheet.new witnessStock).place_rectangle ⟨4, 10⟩ false ⟨0, 0, 10, 10⟩ 0).spaces
      = [⟨4, 0, 6, 10⟩] := by
  refine ⟨by decide, ?_⟩
  have h := (claim_C6_split_regions (Sheet.new witnessStock) ⟨4, 10⟩ false
    ⟨0, 0, 10, 10⟩ 0 (by decide)).1
  rw [h]
  with_unfolding_all decide

theorem claim_C7_witness :
    witnessStock.valid ∧
    ((convert_sheet_to_dict witnessSheet).efficiency
        = round2 (witnessSheet.used_area
            / (witnessSheet.width * witnessSheet.height) * 100) ∧
      0 < witnessSheet.width * witnessSheet.height ∧
      0 ≤ (convert_sheet_to_dict witnessSheet).efficiency ∧
      (convert_sheet_to_dict witnessSheet).efficiency ≤ 100) :=
  ⟨by decide, claim_C7_efficiency (by decide) (by decide) witness_run witnessSheet
    (List.mem_singleton.mpr rfl)⟩

theorem claim_C8_witness :
    witnessStock.valid ∧
    ∀ q ∈ witnessSheet.placed_rectangles,
      (q.width = q.height → q.rotated = false) ∧
      (q.rotated = true → q.width ≠ q.height) :=
  ⟨by decide, claim_C8_squares_never_rotated (by decide) (by decide) witness_run
    witnessSheet (List.mem_singleton.mpr rfl)⟩

theorem claim_C9_witness :
    witnessStock.valid ∧
    (witnessSheet.spaces.Pairwise (fun a b => Disjoint a.set b.set) ∧
      unionOver Space.set witnessSheet.spaces
        = boxSet 0 0 witnessSheet.width witnessSheet.height
          \ unionOver PlacedRect.set witnessSheet.placed_rectangles) :=
  ⟨by decide, (claim_C9_free_regions_partition (by decide) (by decide) witness_run).1
    witnessSheet (List.mem_singleton.mpr rfl)⟩

set_option maxRecDepth 40000 in
theorem claim_C10_witness :
    Sheet.find_best_space (Sheet.new ⟨1, 100, 50⟩) ⟨30, 80⟩
      = some (⟨0, 0, 100, 50⟩, 0, true) ∧
    ¬ ((⟨30, 80⟩ : Rectangle).width ≤ (⟨0, 0, 100, 50⟩ : Space).width ∧
        (⟨30, 80⟩ : Rectangle).height ≤ (⟨0, 0, 100, 50⟩ : Space).height) :=
  ⟨by with_unfolding_all decide,
    claim_C10_rotated_only_when_needed (Sheet.new ⟨1, 100, 50⟩) ⟨30, 80⟩
      ⟨0, 0, 100, 50⟩ 0 (by with_unfolding_all decide)⟩

end GlassCut
